import Mathlib

/-!
# Verification of the best-fit block-selection benchmark (`src/main.rs`)

Shallow embedding of the Rust micro-benchmark that compares four strategies
for selecting a best-fit free memory block.  Machine integers (`u64`) are
modelled as `Nat`; wherever the Rust code truncates (casts to `u32`,
`u64` modular reads of the cycle counter) the embedding applies the
corresponding `% 2 ^ w` explicitly.  A Rust `panic!` / `unwrap` on `None`
is modelled by the strategies returning `none`; a normal return of a block
together with the mutated free list is `some (block, rest)`.

The hardware cycle counter `rdtsc` is modelled as an arbitrary entropy
stream `tsc : Nat → Nat`, read at successive indices; each read is reduced
`% 2 ^ 64` since the counter is a `u64`.
-/

/-- `struct Location { address: u64, length: u64 }`. -/
structure Location where
  address : Nat
  length : Nat
deriving Repr, DecidableEq

/-- Number of values of a `u64`; a u64 read is reduced modulo this. -/
def U64LIMIT : Nat := 2 ^ 64

/-- `u64::MAX`, the sentinel used by `fourth_solution`. -/
def U64MAX : Nat := 2 ^ 64 - 1

/-- `const MAX_POW2_FREE_SIZE: u32 = 8`. -/
def MAX_POW2_FREE_SIZE : Nat := 8

/-- `const FREE_BLOCKS_SIZE: u64 = 1024 * 16`. -/
def FREE_BLOCKS_SIZE : Nat := 1024 * 16

/-- The loop body of `create_free_blocks`, iterated `n` times.
`t` is the index of the next `rdtsc` read, `currAddr` and `maxAlloc` the
running state of the loop.  Each iteration reads the counter once
(`rdtsc() as u32 % MAX_POW2_FREE_SIZE + 1` is the exponent of the next
block size), pushes `Location::new(curr_addr, next_size)`, and bumps the
address.  `curr_addr += next_size` is a `u64` addition, hence the
`% U64LIMIT`. -/
def createLoop (tsc : Nat → Nat) : Nat → Nat → Nat → Nat → List Location × Nat
  | _, _, maxAlloc, 0 => ([], maxAlloc)
  | t, currAddr, maxAlloc, n + 1 =>
    let next_size := 2 ^ (tsc t % U64LIMIT % 2 ^ 32 % MAX_POW2_FREE_SIZE + 1)
    let res := createLoop tsc (t + 1) ((currAddr + next_size) % U64LIMIT)
      (Nat.max maxAlloc next_size) n
    (⟨currAddr, next_size⟩ :: res.1, res.2)

/-- `create_free_blocks()`: the iteration count is
`rdtsc() % FREE_BLOCKS_SIZE + 10` (read at index 0); the loop then reads
the counter at indices 1, 2, …  Returns the list and the maximum
allocation size seen. -/
def create_free_blocks (tsc : Nat → Nat) : List Location × Nat :=
  createLoop tsc 1 0 0 (tsc 0 % U64LIMIT % FREE_BLOCKS_SIZE + 10)

/-- The driver computes `let alloc: u64 = rdtsc() % max_allocation;`. -/
def allocTarget (r maxAllocation : Nat) : Nat := r % U64LIMIT % maxAllocation

/-- Embedding of Rust `Iterator::min_by_key(|b| b.length)`: the minimum by
length, returning the first minimal element in iteration order when
several are equally minimal (the documented behaviour of `min_by_key`). -/
def minByLength : List Location → Option Location
  | [] => none
  | b :: rest =>
    match minByLength rest with
    | none => some b
    | some m => if b.length ≤ m.length then some b else some m

/-- Embedding of `min_by_key(|(_, b)| b.length)` over enumerated pairs:
minimum by the length of the second component, first on ties. -/
def minByPairLength : List (Nat × Location) → Option (Nat × Location)
  | [] => none
  | p :: rest =>
    match minByPairLength rest with
    | none => some p
    | some m => if p.2.length ≤ m.2.length then some p else some m

/-- Embedding of `Vec::swap_remove(i)`: the element at `i` is removed and
returned, the last element takes its place.  Out of bounds panics,
modelled as `none`. -/
def swapRemove (l : List Location) (i : Nat) : Option (Location × List Location) :=
  if h : i < l.length then
    some (l.get ⟨i, h⟩, (l.set i (l.getLastD ⟨0, 0⟩)).dropLast)
  else none

/-- `first_solution`: filter to the blocks with `length >= alloc`, take the
minimum by length (`unwrap` panics when there is none), then rebuild the
list keeping exactly the blocks whose address differs from the winner's
(`drain_filter(|b| b.address != next_block.address).collect()`). -/
def first_solution (free_blocks : List Location) (alloc : Nat) :
    Option (Location × List Location) :=
  match minByLength (free_blocks.filter (fun b => decide (alloc ≤ b.length))) with
  | none => none
  | some next_block =>
    some (next_block, free_blocks.filter (fun b => decide (b.address ≠ next_block.address)))

/-- `second_solution`: enumerate, filter by `length >= alloc`, minimum by
length, map back to the index, `swap_remove` at the unwrapped index. -/
def second_solution (free_blocks : List Location) (alloc : Nat) :
    Option (Location × List Location) :=
  match minByPairLength ((free_blocks.enum).filter (fun p => decide (alloc ≤ p.2.length))) with
  | none => none
  | some p => swapRemove free_blocks p.1

/-- One step of the fold in `third_solution`: from `None`, take the current
entry when it qualifies; from `Some`, replace the running best exactly
when the entry qualifies and is strictly shorter. -/
def thirdStep (alloc : Nat) (acc : Option (Nat × Location)) (p : Nat × Location) :
    Option (Nat × Location) :=
  match acc with
  | none => if alloc ≤ p.2.length then some p else none
  | some m => if alloc ≤ p.2.length ∧ p.2.length < m.2.length then some p else some m

/-- `third_solution`: fold over the enumerated list tracking the best
`(index, block)` pair, `expect("Not found")` on `None`, then
`swap_remove` at the winning index. -/
def third_solution (free_blocks : List Location) (alloc : Nat) :
    Option (Location × List Location) :=
  match (free_blocks.enum).foldl (thirdStep alloc) none with
  | none => none
  | some p => swapRemove free_blocks p.1

/-- One step of the loop in `fourth_solution`: state is
`(smallest_length, best_index)`; an entry updates the state exactly when
it qualifies and is strictly shorter than `smallest_length`. -/
def fourthStep (alloc : Nat) (st : Nat × Option Nat) (p : Nat × Location) :
    Nat × Option Nat :=
  if alloc ≤ p.2.length ∧ p.2.length < st.1 then (p.2.length, some p.1) else st

/-- `fourth_solution`: explicit loop with `smallest_length` initialised to
`u64::MAX` and `best_index` to `None`; `swap_remove` at the unwrapped
best index. -/
def fourth_solution (free_blocks : List Location) (alloc : Nat) :
    Option (Location × List Location) :=
  match ((free_blocks.enum).foldl (fourthStep alloc) (U64MAX, none)).2 with
  | none => none
  | some i => swapRemove free_blocks i

/-- The enumeration `ProfileBlock` over which the driver clones the work:
one variant per profiled region (workload creation plus the four
strategies). -/
inductive ProfileBlock
  | CreateWork
  | First
  | FilterSwapRemove
  | Fold
  | ForLoop
deriving Repr, DecidableEq

/-- The variants of `ProfileBlock`, in declaration order. -/
def profileBlockVariants : List ProfileBlock :=
  [.CreateWork, .First, .FilterSwapRemove, .Fold, .ForLoop]

/-- `std::mem::variant_count::<ProfileBlock>()`. -/
def NUM_PROFILE_BLOCKS : Nat := profileBlockVariants.length

/-- The driver's per-iteration cloning of the work:
`(0..NUM_PROFILE_BLOCKS).map(|_| free_blocks.clone()).collect()`. -/
def cloneWork (free_blocks : List Location) : List (List Location) :=
  (List.range NUM_PROFILE_BLOCKS).map (fun _ => free_blocks)

/-- The maximum block length present in a free list. -/
def maxLength (l : List Location) : Nat :=
  (l.map Location.length).foldr Nat.max 0

/-- The example free list of the spec's tie-break scenario. -/
def exampleBlocks : List Location := [⟨0, 2⟩, ⟨2, 4⟩, ⟨6, 2⟩]

/-- Combine a candidate with the best of the remaining list, the candidate
winning ties (it comes earlier in iteration order). -/
def pickMin (p : Nat × Location) : Option (Nat × Location) → Option (Nat × Location)
  | none => some p
  | some m => if p.2.length ≤ m.2.length then some p else some m

/-- Reference selection shared by the equivalence proofs: the first
qualifying pair of minimal length, over an already-enumerated list. -/
def qualMin (alloc : Nat) : List (Nat × Location) → Option (Nat × Location)
  | [] => none
  | p :: rest =>
    if alloc ≤ p.2.length then pickMin p (qualMin alloc rest)
    else qualMin alloc rest

example : first_solution exampleBlocks 2 = some (⟨0, 2⟩, [⟨2, 4⟩, ⟨6, 2⟩]) := by decide

example : second_solution exampleBlocks 2 = some (⟨0, 2⟩, [⟨6, 2⟩, ⟨2, 4⟩]) := by decide

example : third_solution exampleBlocks 2 = some (⟨0, 2⟩, [⟨6, 2⟩, ⟨2, 4⟩]) := by decide

example : fourth_solution exampleBlocks 2 = some (⟨0, 2⟩, [⟨6, 2⟩, ⟨2, 4⟩]) := by decide

example : fourth_solution [⟨0, U64MAX⟩] 2 = none := by decide

example : third_solution [⟨0, U64MAX⟩] 2 = some (⟨0, U64MAX⟩, []) := by decide

example : first_solution [⟨0, 2⟩, ⟨0, 2⟩] 2 = some (⟨0, 2⟩, []) := by decide

example : (create_free_blocks (fun _ => 0)).1.length = 10 := by decide

example : (create_free_blocks (fun _ => 0)).2 = 2 := by decide

/-! ## Properties of the reference selection `qualMin` -/

theorem pickMin_isSome (p : Nat × Location) (o : Option (Nat × Location)) :
    (pickMin p o).isSome := by
  cases o with
  | none => rfl
  | some m => simp only [pickMin]; split <;> rfl

theorem pickMin_cases (p : Nat × Location) (o : Option (Nat × Location)) :
    pickMin p o = some p ∨ pickMin p o = o := by
  cases o with
  | none => exact Or.inl rfl
  | some m => simp only [pickMin]; split <;> simp

theorem qualMin_mem {a : Nat} :
    ∀ {xs : List (Nat × Location)} {q : Nat × Location}, qualMin a xs = some q → q ∈ xs := by
  intro xs
  induction xs with
  | nil => intro q h; simp [qualMin] at h
  | cons p rest ih =>
    intro q h
    simp only [qualMin] at h
    by_cases hp : a ≤ p.2.length
    · rw [if_pos hp] at h
      rcases pickMin_cases p (qualMin a rest) with hc | hc <;> rw [hc] at h
      · cases h; exact List.mem_cons_self _ _
      · exact List.mem_cons_of_mem _ (ih h)
    · rw [if_neg hp] at h
      exact List.mem_cons_of_mem _ (ih h)

theorem qualMin_qual {a : Nat} :
    ∀ {xs : List (Nat × Location)} {q : Nat × Location},
      qualMin a xs = some q → a ≤ q.2.length := by
  intro xs
  induction xs with
  | nil => intro q h; simp [qualMin] at h
  | cons p rest ih =>
    intro q h
    simp only [qualMin] at h
    by_cases hp : a ≤ p.2.length
    · rw [if_pos hp] at h
      rcases pickMin_cases p (qualMin a rest) with hc | hc <;> rw [hc] at h
      · cases h; exact hp
      · exact ih h
    · rw [if_neg hp] at h
      exact ih h

theorem qualMin_isSome {a : Nat} :
    ∀ {xs : List (Nat × Location)} {p : Nat × Location}, p ∈ xs → a ≤ p.2.length →
      (qualMin a xs).isSome := by
  intro xs
  induction xs with
  | nil => intro p h; simp at h
  | cons s rest ih =>
    intro p hp hpa
    simp only [qualMin]
    rcases List.mem_cons.1 hp with hp | hp
    · subst hp; rw [if_pos hpa]; exact pickMin_isSome _ _
    · by_cases hs : a ≤ s.2.length
      · rw [if_pos hs]; exact pickMin_isSome _ _
      · rw [if_neg hs]; exact ih hp hpa

theorem qualMin_min {a : Nat} :
    ∀ {xs : List (Nat × Location)} {q : Nat × Location}, qualMin a xs = some q →
      ∀ p ∈ xs, a ≤ p.2.length → q.2.length ≤ p.2.length := by
  intro xs
  induction xs with
  | nil => intro q h; simp [qualMin] at h
  | cons s rest ih =>
    intro q h p hp hpa
    simp only [qualMin] at h
    rcases List.mem_cons.1 hp with hp | hp
    · subst hp
      rw [if_pos hpa] at h
      cases hrest : qualMin a rest with
      | none => rw [hrest] at h; cases h; exact le_refl _
      | some m =>
        rw [hrest] at h
        simp only [pickMin] at h
        by_cases hc : p.2.length ≤ m.2.length
        · rw [if_pos hc] at h; cases h; exact le_refl _
        · rw [if_neg hc] at h; cases h; omega
    · have hsome := qualMin_isSome hp hpa
      cases hrest : qualMin a rest with
      | none => rw [hrest] at hsome; simp at hsome
      | some m =>
        have hm := ih hrest p hp hpa
        by_cases hs : a ≤ s.2.length
        · rw [if_pos hs, hrest] at h
          simp only [pickMin] at h
          by_cases hc : s.2.length ≤ m.2.length
          · rw [if_pos hc] at h; cases h; omega
          · rw [if_neg hc] at h; cases h; exact hm
        · rw [if_neg hs] at h; rw [hrest] at h; cases h; exact hm

theorem qualMin_eq_none {a : Nat} :
    ∀ {xs : List (Nat × Location)}, (∀ p ∈ xs, p.2.length < a) → qualMin a xs = none := by
  intro xs
  induction xs with
  | nil => intro _; rfl
  | cons s rest ih =>
    intro h
    have hs : s.2.length < a := h s (List.mem_cons_self _ _)
    simp only [qualMin, if_neg (by omega : ¬ a ≤ s.2.length)]
    exact ih (fun p hp => h p (List.mem_cons_of_mem _ hp))

/-! ## Each strategy's selection step computes `qualMin` -/

theorem minByPairLength_cons (p : Nat × Location) (rest : List (Nat × Location)) :
    minByPairLength (p :: rest) = pickMin p (minByPairLength rest) := by
  cases h : minByPairLength rest <;> simp [minByPairLength, pickMin, h]

theorem minByPairLength_filter (a : Nat) :
    ∀ xs : List (Nat × Location),
      minByPairLength (xs.filter (fun p => decide (a ≤ p.2.length))) = qualMin a xs := by
  intro xs
  induction xs with
  | nil => rfl
  | cons p rest ih =>
    by_cases hp : a ≤ p.2.length
    · rw [List.filter_cons_of_pos (by simpa using hp), minByPairLength_cons, ih]
      simp only [qualMin, if_pos hp]
    · rw [List.filter_cons_of_neg (by simpa using hp), ih]
      simp only [qualMin, if_neg hp]

theorem minByLength_filter_eq (a : Nat) :
    ∀ (l : List Location) (n : Nat),
      minByLength (l.filter (fun b => decide (a ≤ b.length)))
        = (qualMin a (l.enumFrom n)).map Prod.snd := by
  intro l
  induction l with
  | nil => intro n; rfl
  | cons b l ih =>
    intro n
    rw [show (b :: l).enumFrom n = (n, b) :: l.enumFrom (n + 1) from rfl]
    by_cases hb : a ≤ b.length
    · rw [List.filter_cons_of_pos (by simpa using hb)]
      rw [show minByLength (b :: List.filter (fun b => decide (a ≤ b.length)) l)
          = match minByLength (List.filter (fun b => decide (a ≤ b.length)) l) with
            | none => some b
            | some m => if b.length ≤ m.length then some b else some m from rfl]
      rw [ih (n + 1)]
      simp only [qualMin, if_pos (show a ≤ (n, b).2.length from hb)]
      cases hq : qualMin a (l.enumFrom (n + 1)) with
      | none => simp [pickMin]
      | some m =>
        by_cases hc : b.length ≤ m.2.length <;> simp [pickMin, hc]
    · rw [List.filter_cons_of_neg (by simpa using hb), ih (n + 1)]
      simp only [qualMin, if_neg (show ¬ a ≤ (n, b).2.length from hb)]

theorem third_foldl_some (a : Nat) :
    ∀ (xs : List (Nat × Location)) (m : Nat × Location),
      xs.foldl (thirdStep a) (some m)
        = match qualMin a xs with
          | none => some m
          | some q => some (if q.2.length < m.2.length then q else m) := by
  intro xs
  induction xs with
  | nil => intro m; rfl
  | cons p xs ih =>
    intro m
    rw [List.foldl_cons]
    by_cases hq : a ≤ p.2.length
    · by_cases hlt : p.2.length < m.2.length
      · rw [show thirdStep a (some m) p = some p from by simp [thirdStep, hq, hlt]]
        rw [ih p]
        simp only [qualMin, if_pos hq]
        cases hx : qualMin a xs with
        | none => simp [pickMin, hlt]
        | some q =>
          by_cases hpq : p.2.length ≤ q.2.length
          · simp [pickMin, hpq, hlt, show ¬ q.2.length < p.2.length by omega]
          · simp [pickMin, hpq, show q.2.length < p.2.length by omega,
              show q.2.length < m.2.length by omega]
      · rw [show thirdStep a (some m) p = some m from by
          simp [thirdStep]; intro _; omega]
        rw [ih m]
        simp only [qualMin, if_pos hq]
        cases hx : qualMin a xs with
        | none => simp [pickMin, show ¬ p.2.length < m.2.length from hlt]
        | some q =>
          by_cases hpq : p.2.length ≤ q.2.length
          · simp [pickMin, hpq, show ¬ p.2.length < m.2.length from hlt,
              show ¬ q.2.length < m.2.length by omega]
          · simp [pickMin, hpq]
    · rw [show thirdStep a (some m) p = some m from by simp [thirdStep, hq]]
      rw [ih m]
      simp only [qualMin, if_neg hq]

theorem third_foldl_none (a : Nat) :
    ∀ xs : List (Nat × Location), xs.foldl (thirdStep a) none = qualMin a xs := by
  intro xs
  induction xs with
  | nil => rfl
  | cons p xs ih =>
    rw [List.foldl_cons]
    by_cases hq : a ≤ p.2.length
    · rw [show thirdStep a none p = some p from by simp [thirdStep, hq]]
      rw [third_foldl_some]
      simp only [qualMin, if_pos hq]
      cases hx : qualMin a xs with
      | none => simp [pickMin]
      | some q =>
        by_cases hpq : p.2.length ≤ q.2.length
        · simp [pickMin, hpq, show ¬ q.2.length < p.2.length by omega]
        · simp [pickMin, hpq, show q.2.length < p.2.length by omega]
    · rw [show thirdStep a none p = none from by simp [thirdStep, hq]]
      rw [ih]
      simp only [qualMin, if_neg hq]

theorem fourth_foldl (a : Nat) :
    ∀ (xs : List (Nat × Location)) (s : Nat) (b : Option Nat),
      xs.foldl (fourthStep a) (s, b)
        = match qualMin a xs with
          | none => (s, b)
          | some q => if q.2.length < s then (q.2.length, some q.1) else (s, b) := by
  intro xs
  induction xs with
  | nil => intro s b; rfl
  | cons p xs ih =>
    intro s b
    rw [List.foldl_cons]
    by_cases hq : a ≤ p.2.length
    · by_cases hlt : p.2.length < s
      · rw [show fourthStep a (s, b) p = (p.2.length, some p.1) from by
          simp [fourthStep, hq, hlt]]
        rw [ih]
        simp only [qualMin, if_pos hq]
        cases hx : qualMin a xs with
        | none => simp [pickMin, hlt]
        | some q =>
          by_cases hpq : p.2.length ≤ q.2.length
          · simp [pickMin, hpq, hlt, show ¬ q.2.length < p.2.length by omega]
          · simp [pickMin, hpq, show q.2.length < p.2.length by omega,
              show q.2.length < s by omega]
      · rw [show fourthStep a (s, b) p = (s, b) from by
          simp [fourthStep]; intro _; omega]
        rw [ih]
        simp only [qualMin, if_pos hq]
        cases hx : qualMin a xs with
        | none => simp [pickMin, show ¬ p.2.length < s from hlt]
        | some q =>
          by_cases hpq : p.2.length ≤ q.2.length
          · simp [pickMin, hpq, show ¬ p.2.length < s from hlt,
              show ¬ q.2.length < s by omega]
          · simp [pickMin, hpq]
    · rw [show fourthStep a (s, b) p = (s, b) from by simp [fourthStep, hq]]
      rw [ih]
      simp only [qualMin, if_neg hq]

/-! ## Enumeration bookkeeping -/

theorem enumFrom_mem_spec :
    ∀ (l : List Location) (n : Nat) (p : Nat × Location), p ∈ l.enumFrom n →
      ∃ j, ∃ h : j < l.length, p.1 = n + j ∧ l.get ⟨j, h⟩ = p.2 := by
  intro l
  induction l with
  | nil => intro n p h; simp [List.enumFrom] at h
  | cons b l ih =>
    intro n p hp
    rw [show (b :: l).enumFrom n = (n, b) :: l.enumFrom (n + 1) from rfl] at hp
    rcases List.mem_cons.1 hp with hp | hp
    · exact ⟨0, by simp, by simp [hp], by simp [hp]⟩
    · rcases ih (n + 1) p hp with ⟨j, hj, hfst, hsnd⟩
      refine ⟨j + 1, by simpa using Nat.succ_lt_succ hj, by omega, ?_⟩
      simpa using hsnd

theorem mem_enumFrom_of_get :
    ∀ (l : List Location) (n j : Nat) (h : j < l.length),
      (n + j, l.get ⟨j, h⟩) ∈ l.enumFrom n := by
  intro l
  induction l with
  | nil => intro n j h; simp at h
  | cons b l ih =>
    intro n j h
    rw [show (b :: l).enumFrom n = (n, b) :: l.enumFrom (n + 1) from rfl]
    cases j with
    | zero => simp
    | succ j =>
      refine List.mem_cons_of_mem _ ?_
      have hj : j < l.length := by simpa using Nat.lt_of_succ_lt_succ h
      have := ih (n + 1) j hj
      have harith : n + (j + 1) = n + 1 + j := by omega
      rw [harith]
      simpa using this

/-! ## The four strategies, rewritten through `qualMin` -/

theorem first_solution_eq (l : List Location) (t : Nat) :
    first_solution l t
      = match qualMin t l.enum with
        | none => none
        | some q =>
          some (q.2, l.filter (fun b => decide (b.address ≠ q.2.address))) := by
  unfold first_solution
  rw [show l.enum = l.enumFrom 0 from rfl, minByLength_filter_eq t l 0]
  cases hq : qualMin t (l.enumFrom 0) <;> simp

theorem second_solution_eq (l : List Location) (t : Nat) :
    second_solution l t
      = match qualMin t l.enum with
        | none => none
        | some q => swapRemove l q.1 := by
  unfold second_solution
  rw [minByPairLength_filter t l.enum]

theorem third_solution_eq (l : List Location) (t : Nat) :
    third_solution l t
      = match qualMin t l.enum with
        | none => none
        | some q => swapRemove l q.1 := by
  unfold third_solution
  rw [third_foldl_none]

theorem fourth_solution_eq (l : List Location) (t : Nat) :
    fourth_solution l t
      = match qualMin t l.enum with
        | none => none
        | some q => if q.2.length < U64MAX then swapRemove l q.1 else none := by
  unfold fourth_solution
  rw [fourth_foldl]
  cases hq : qualMin t l.enum with
  | none => rfl
  | some q => by_cases hlt : q.2.length < U64MAX <;> simp [hlt]

/-! ## Frame properties of `swapRemove` -/

theorem getLastD_eq_getElem_last (l : List Location) (d : Location) (h : 0 < l.length) :
    l.getLastD d = l.get ⟨l.length - 1, by omega⟩ := by
  have hne : l ≠ [] := by
    cases l
    · simp at h
    · simp
  rw [List.getLastD_eq_getLast? d l, List.getLast?_eq_getLast l hne]
  simp only [Option.getD_some]
  rw [List.getLast_eq_getElem l hne]
  simp [List.get_eq_getElem]

theorem swapRemove_eq (l : List Location) (i : Nat) (h : i < l.length) :
    swapRemove l i = some (l.get ⟨i, h⟩, (l.set i (l.getLastD ⟨0, 0⟩)).dropLast) := by
  simp [swapRemove, h]

theorem swapRemove_rest_length (l : List Location) (i : Nat) (h : i < l.length) :
    ((l.set i (l.getLastD ⟨0, 0⟩)).dropLast).length + 1 = l.length := by
  simp only [List.length_dropLast, List.length_set]
  omega

theorem swapRemove_rest_get (l : List Location) (i j : Nat)
    (hj : j < ((l.set i (l.getLastD ⟨0, 0⟩)).dropLast).length) (hjl : j < l.length) :
    ((l.set i (l.getLastD ⟨0, 0⟩)).dropLast).get ⟨j, hj⟩
      = if i = j then l.getLastD ⟨0, 0⟩ else l.get ⟨j, hjl⟩ := by
  simp only [List.get_eq_getElem]
  rw [List.getElem_dropLast, List.getElem_set]

theorem addr_get_inj {l : List Location} (hnd : (l.map Location.address).Nodup)
    {j1 j2 : Nat} (h1 : j1 < l.length) (h2 : j2 < l.length)
    (heq : (l.get ⟨j1, h1⟩).address = (l.get ⟨j2, h2⟩).address) : j1 = j2 := by
  have hm1 : j1 < (l.map Location.address).length := by simpa using h1
  have hm2 : j2 < (l.map Location.address).length := by simpa using h2
  have hmeq : (l.map Location.address).get ⟨j1, hm1⟩
      = (l.map Location.address).get ⟨j2, hm2⟩ := by
    simpa [List.get_eq_getElem, List.getElem_map] using heq
  have hfin : (⟨j1, hm1⟩ : Fin (l.map Location.address).length) = ⟨j2, hm2⟩ :=
    (List.Nodup.get_inj_iff hnd).1 hmeq
  exact congrArg Fin.val hfin

theorem swapRemove_frame (l : List Location) (i : Nat) (h : i < l.length)
    (hnd : (l.map Location.address).Nodup) :
    ∃ rest, swapRemove l i = some (l.get ⟨i, h⟩, rest) ∧
      rest.length + 1 = l.length ∧
      (l.get ⟨i, h⟩).address ∉ rest.map Location.address ∧
      ∀ c ∈ l, c ≠ l.get ⟨i, h⟩ → c ∈ rest := by
  have hrlen := swapRemove_rest_length l i h
  refine ⟨_, swapRemove_eq l i h, hrlen, ?_, ?_⟩
  · intro hmem
    rw [List.mem_map] at hmem
    obtain ⟨c, hc, hca⟩ := hmem
    rw [List.mem_iff_get] at hc
    obtain ⟨⟨j, hj⟩, hcj⟩ := hc
    have hjl : j < l.length - 1 := by omega
    rw [swapRemove_rest_get l i j hj (by omega)] at hcj
    by_cases hij : i = j
    · rw [if_pos hij] at hcj
      rw [getLastD_eq_getElem_last l ⟨0, 0⟩ (by omega)] at hcj
      rw [← hcj] at hca
      have := addr_get_inj hnd (show l.length - 1 < l.length by omega) h hca
      omega
    · rw [if_neg hij] at hcj
      rw [← hcj] at hca
      have := addr_get_inj hnd (show j < l.length by omega) h hca
      omega
  · intro c hc hne
    rw [List.mem_iff_get] at hc
    obtain ⟨⟨j, hj⟩, hcj⟩ := hc
    have hij : j ≠ i := by
      intro hcontra
      subst hcontra
      exact hne (by rw [← hcj])
    by_cases hjl : j < l.length - 1
    · rw [List.mem_iff_get]
      refine ⟨⟨j, by omega⟩, ?_⟩
      rw [swapRemove_rest_get l i j (by omega) (by omega)]
      rw [if_neg (by omega)]
      exact hcj
    · have hj1 : j = l.length - 1 := by omega
      have hil : i < l.length - 1 := by omega
      subst hj1
      rw [List.mem_iff_get]
      refine ⟨⟨i, by omega⟩, ?_⟩
      rw [swapRemove_rest_get l i i (by omega) (by omega), if_pos rfl]
      rw [getLastD_eq_getElem_last l ⟨0, 0⟩ (by omega)]
      exact hcj

/-! ## Frame property of the rebuild in `first_solution` -/

theorem filter_addr_of_nodup (l1 l2 : List Location) (b : Location)
    (hnd : ((l1 ++ b :: l2).map Location.address).Nodup) :
    (l1 ++ b :: l2).filter (fun c => decide (c.address ≠ b.address)) = l1 ++ l2 := by
  rw [List.map_append, List.map_cons, List.nodup_append] at hnd
  obtain ⟨hnd1, hnd2, hdisj⟩ := hnd
  have hb2 : b.address ∉ l2.map Location.address := (List.nodup_cons.1 hnd2).1
  have hb1 : b.address ∉ l1.map Location.address := by
    intro hmem
    exact hdisj hmem (List.mem_cons_self _ _)
  rw [List.filter_append, List.filter_cons_of_neg (by simp)]
  rw [List.filter_eq_self.2, List.filter_eq_self.2]
  · intro c hc
    simp only [decide_eq_true_eq]
    intro hceq
    exact hb2 (hceq ▸ List.mem_map_of_mem Location.address hc)
  · intro c hc
    simp only [decide_eq_true_eq]
    intro hceq
    exact hb1 (hceq ▸ List.mem_map_of_mem Location.address hc)

/-! ## Invariants of the workload generator -/

theorem createLoop_spec (tsc : Nat → Nat) :
    ∀ (n t currAddr maxAlloc : Nat) (bs : List Location) (m : Nat),
      createLoop tsc t currAddr maxAlloc n = (bs, m) →
      currAddr + 2 ^ 8 * n < U64LIMIT →
      bs.length = n ∧
      (∀ j (hj : j < bs.length),
        (bs.get ⟨j, hj⟩).address = currAddr + ((bs.take j).map Location.length).sum) ∧
      (∀ b ∈ bs, ∃ e, e ≤ 7 ∧ b.length = 2 ^ (e + 1)) ∧
      maxAlloc ≤ m ∧ (∀ b ∈ bs, b.length ≤ m) ∧
      (m = maxAlloc ∨ ∃ b ∈ bs, b.length = m) := by
  intro n
  induction n with
  | zero =>
    intro t currAddr maxAlloc bs m h hbound
    simp only [createLoop, Prod.mk.injEq] at h
    obtain ⟨h1, h2⟩ := h
    subst h1
    subst h2
    refine ⟨rfl, ?_, ?_, le_refl _, ?_, Or.inl rfl⟩ <;> simp
  | succ n ih =>
    intro t currAddr maxAlloc bs m h hbound
    simp only [createLoop] at h
    obtain ⟨rest, m2, hrest⟩ :
        ∃ rest m2, createLoop tsc (t + 1)
          ((currAddr + 2 ^ (tsc t % U64LIMIT % 2 ^ 32 % MAX_POW2_FREE_SIZE + 1)) % U64LIMIT)
          (Nat.max maxAlloc (2 ^ (tsc t % U64LIMIT % 2 ^ 32 % MAX_POW2_FREE_SIZE + 1))) n
          = (rest, m2) := ⟨_, _, rfl⟩
    have hexp : tsc t % U64LIMIT % 2 ^ 32 % MAX_POW2_FREE_SIZE + 1 ≤ 8 := by
      have : tsc t % U64LIMIT % 2 ^ 32 % MAX_POW2_FREE_SIZE < 8 :=
        Nat.mod_lt _ (by norm_num [MAX_POW2_FREE_SIZE])
      omega
    have hsz256 : 2 ^ (tsc t % U64LIMIT % 2 ^ 32 % MAX_POW2_FREE_SIZE + 1) ≤ 256 := by
      calc 2 ^ (tsc t % U64LIMIT % 2 ^ 32 % MAX_POW2_FREE_SIZE + 1)
          ≤ 2 ^ 8 := Nat.pow_le_pow_right (by norm_num) hexp
        _ = 256 := by norm_num
    have hU : U64LIMIT = 18446744073709551616 := by norm_num [U64LIMIT]
    have h256 : (2 : Nat) ^ 8 = 256 := by norm_num
    have hlt : currAddr + 2 ^ (tsc t % U64LIMIT % 2 ^ 32 % MAX_POW2_FREE_SIZE + 1)
        < U64LIMIT := by omega
    rw [Nat.mod_eq_of_lt hlt] at hrest
    have ihres := ih (t + 1)
      (currAddr + 2 ^ (tsc t % U64LIMIT % 2 ^ 32 % MAX_POW2_FREE_SIZE + 1))
      (Nat.max maxAlloc (2 ^ (tsc t % U64LIMIT % 2 ^ 32 % MAX_POW2_FREE_SIZE + 1)))
      rest m2 hrest (by omega)
    obtain ⟨ihlen, ihaddr, ihpow, ihmax, ihbound2, ihattain⟩ := ihres
    rw [Nat.mod_eq_of_lt hlt, hrest] at h
    simp only [Prod.mk.injEq] at h
    obtain ⟨h1, h2⟩ := h
    subst h1
    subst h2
    refine ⟨by simp [ihlen], ?_, ?_, ?_, ?_, ?_⟩
    · intro j hj
      cases j with
      | zero => simp
      | succ k =>
        have hk : k < rest.length := by simpa using hj
        have := ihaddr k hk
        simp only [List.get_cons_succ, List.take_succ_cons, List.map_cons, List.sum_cons]
        rw [this]
        omega
    · intro b hb
      rcases List.mem_cons.1 hb with hb | hb
      · subst hb
        exact ⟨tsc t % U64LIMIT % 2 ^ 32 % MAX_POW2_FREE_SIZE, by omega, rfl⟩
      · exact ihpow b hb
    · exact le_trans (Nat.le_max_left _ _) ihmax
    · intro b hb
      rcases List.mem_cons.1 hb with hb | hb
      · subst hb
        exact le_trans (Nat.le_max_right _ _) ihmax
      · exact ihbound2 b hb
    · rcases ihattain with hattain | ⟨b, hb, hblen⟩
      · rcases Nat.le_total maxAlloc (2 ^ (tsc t % U64LIMIT % 2 ^ 32 % MAX_POW2_FREE_SIZE + 1))
          with hle | hle
        · refine Or.inr ⟨⟨currAddr, _⟩, List.mem_cons_self _ _, ?_⟩
          show 2 ^ (tsc t % U64LIMIT % 2 ^ 32 % MAX_POW2_FREE_SIZE + 1) = m2
          have hcast : Nat.max maxAlloc (2 ^ (tsc t % U64LIMIT % 2 ^ 32 % MAX_POW2_FREE_SIZE + 1))
              = max maxAlloc (2 ^ (tsc t % U64LIMIT % 2 ^ 32 % MAX_POW2_FREE_SIZE + 1)) := rfl
          rw [hattain, hcast, max_eq_right hle]
        · refine Or.inl ?_
          have hcast : Nat.max maxAlloc (2 ^ (tsc t % U64LIMIT % 2 ^ 32 % MAX_POW2_FREE_SIZE + 1))
              = max maxAlloc (2 ^ (tsc t % U64LIMIT % 2 ^ 32 % MAX_POW2_FREE_SIZE + 1)) := rfl
          rw [hattain, hcast, max_eq_left hle]
      · exact Or.inr ⟨b, List.mem_cons_of_mem _ hb, hblen⟩

theorem maxLength_cons (b : Location) (l : List Location) :
    maxLength (b :: l) = Nat.max b.length (maxLength l) := rfl

theorem le_maxLength_of_mem :
    ∀ {l : List Location} {b : Location}, b ∈ l → b.length ≤ maxLength l := by
  intro l
  induction l with
  | nil => intro b h; simp at h
  | cons c l ih =>
    intro b hb
    rw [maxLength_cons]
    rcases List.mem_cons.1 hb with hb | hb
    · subst hb; exact Nat.le_max_left _ _
    · exact le_trans (ih hb) (Nat.le_max_right _ _)

theorem maxLength_le :
    ∀ {l : List Location} {m : Nat}, (∀ b ∈ l, b.length ≤ m) → maxLength l ≤ m := by
  intro l
  induction l with
  | nil => intro m _; simp [maxLength]
  | cons c l ih =>
    intro m h
    rw [maxLength_cons]
    have h1 : c.length ≤ m := h c (List.mem_cons_self _ _)
    have h2 : maxLength l ≤ m := ih (fun b hb => h b (List.mem_cons_of_mem _ hb))
    exact Nat.max_le.2 ⟨h1, h2⟩

theorem maxLength_eq {l : List Location} {m : Nat} (h1 : ∀ b ∈ l, b.length ≤ m)
    (h2 : ∃ b ∈ l, b.length = m) : maxLength l = m := by
  obtain ⟨b, hb, hbl⟩ := h2
  have := le_maxLength_of_mem hb
  have := maxLength_le h1
  omega

theorem create_free_blocks_spec (tsc : Nat → Nat) :
    10 ≤ (create_free_blocks tsc).1.length ∧
    (create_free_blocks tsc).1.length < 10 + FREE_BLOCKS_SIZE ∧
    (∀ j (hj : j < (create_free_blocks tsc).1.length),
      ((create_free_blocks tsc).1.get ⟨j, hj⟩).address
        = (((create_free_blocks tsc).1.take j).map Location.length).sum) ∧
    (∀ b ∈ (create_free_blocks tsc).1, ∃ e, e ≤ 7 ∧ b.length = 2 ^ (e + 1)) ∧
    (∀ b ∈ (create_free_blocks tsc).1, b.length ≤ (create_free_blocks tsc).2) ∧
    (∃ b ∈ (create_free_blocks tsc).1, b.length = (create_free_blocks tsc).2) ∧
    2 ≤ (create_free_blocks tsc).2 := by
  obtain ⟨bs, m, hbm⟩ : ∃ bs m, create_free_blocks tsc = (bs, m) := ⟨_, _, rfl⟩
  have hk : tsc 0 % U64LIMIT % FREE_BLOCKS_SIZE < FREE_BLOCKS_SIZE :=
    Nat.mod_lt _ (by norm_num [FREE_BLOCKS_SIZE])
  have hFB : FREE_BLOCKS_SIZE = 16384 := by norm_num [FREE_BLOCKS_SIZE]
  have hU : U64LIMIT = 18446744073709551616 := by norm_num [U64LIMIT]
  have h256 : (2 : Nat) ^ 8 = 256 := by norm_num
  have hloop : createLoop tsc 1 0 0 (tsc 0 % U64LIMIT % FREE_BLOCKS_SIZE + 10) = (bs, m) := hbm
  obtain ⟨hlen, haddr, hpow, hmax0, hbnd, hattain⟩ :=
    createLoop_spec tsc (tsc 0 % U64LIMIT % FREE_BLOCKS_SIZE + 10) 1 0 0 bs m hloop (by omega)
  have hbs10 : 10 ≤ bs.length := by omega
  have hmem0 : bs.get ⟨0, by omega⟩ ∈ bs := List.get_mem _ _ _
  have hattain2 : ∃ b ∈ bs, b.length = m := by
    rcases hattain with hm0 | hatt
    · exfalso
      obtain ⟨e, he, helen⟩ := hpow _ hmem0
      have hle := hbnd _ hmem0
      have hpos : 0 < 2 ^ (e + 1) := Nat.pos_pow_of_pos _ (by norm_num)
      omega
    · exact hatt
  have hm2 : 2 ≤ m := by
    obtain ⟨b, hb, hbl⟩ := hattain2
    obtain ⟨e, he, helen⟩ := hpow b hb
    have : 2 ^ 1 ≤ 2 ^ (e + 1) := Nat.pow_le_pow_right (by norm_num) (by omega)
    simp only [pow_one] at this
    omega
  have hlt2 : bs.length < 10 + FREE_BLOCKS_SIZE := by omega
  have haddr2 : ∀ j (hj : j < bs.length),
      (bs.get ⟨j, hj⟩).address = ((bs.take j).map Location.length).sum := by
    intro j hj
    have := haddr j hj
    omega
  rw [hbm]
  exact ⟨hbs10, hlt2, haddr2, hpow, hbnd, hattain2, hm2⟩

/-! ## Shared selection facts -/

theorem qualMin_enum_select (l : List Location) (t : Nat)
    (hq : ∃ b ∈ l, t ≤ b.length) :
    ∃ q : Nat × Location, qualMin t l.enum = some q ∧
      ∃ h : q.1 < l.length, l.get ⟨q.1, h⟩ = q.2 := by
  obtain ⟨b, hb, hbt⟩ := hq
  rw [List.mem_iff_get] at hb
  obtain ⟨⟨j, hj⟩, hbj⟩ := hb
  have hmem : (0 + j, l.get ⟨j, hj⟩) ∈ l.enumFrom 0 := mem_enumFrom_of_get l 0 j hj
  rw [hbj] at hmem
  have hsome : (qualMin t (l.enumFrom 0)).isSome := qualMin_isSome hmem hbt
  cases hqm : qualMin t (l.enumFrom 0) with
  | none => rw [hqm] at hsome; simp at hsome
  | some q =>
    obtain ⟨j2, hj2, hfst, hsnd⟩ := enumFrom_mem_spec l 0 q (qualMin_mem hqm)
    have hq1 : q.1 = j2 := by omega
    refine ⟨q, hqm, ⟨by omega, ?_⟩⟩
    rw [← hsnd]
    congr 1
    exact Fin.ext hq1

theorem qualMin_enum_min (l : List Location) (t : Nat) {q : Nat × Location}
    (hqm : qualMin t l.enum = some q) :
    ∀ c ∈ l, t ≤ c.length → q.2.length ≤ c.length := by
  intro c hc hct
  rw [List.mem_iff_get] at hc
  obtain ⟨⟨j, hj⟩, hcj⟩ := hc
  have hmem : (0 + j, l.get ⟨j, hj⟩) ∈ l.enumFrom 0 := mem_enumFrom_of_get l 0 j hj
  rw [hcj] at hmem
  exact qualMin_min hqm _ hmem hct

theorem qualMin_enum_none (l : List Location) (t : Nat)
    (h : ∀ b ∈ l, b.length < t) : qualMin t l.enum = none := by
  refine qualMin_eq_none ?_
  intro p hp
  obtain ⟨j, hj, _, hsnd⟩ := enumFrom_mem_spec l 0 p hp
  exact hsnd ▸ h _ (List.get_mem l j hj)

theorem first_frame (l : List Location) (t : Nat)
    (hnd : (l.map Location.address).Nodup) {q : Nat × Location}
    (hqm : qualMin t l.enum = some q) :
    ∃ rest, first_solution l t = some (q.2, rest) ∧ rest.length + 1 = l.length ∧
      q.2.address ∉ rest.map Location.address ∧
      ∀ c ∈ l, c ≠ q.2 → c ∈ rest := by
  have hmem : q.2 ∈ l := by
    obtain ⟨j, hj, _, hsnd⟩ := enumFrom_mem_spec l 0 q (qualMin_mem hqm)
    exact hsnd ▸ List.get_mem l j hj
  obtain ⟨l1, l2, hdecomp⟩ := List.append_of_mem hmem
  subst hdecomp
  have hfilter := filter_addr_of_nodup l1 l2 q.2 hnd
  have hnd2 := hnd
  rw [List.map_append, List.map_cons, List.nodup_append] at hnd2
  obtain ⟨hndA, hndB, hdisj⟩ := hnd2
  have hxB : q.2.address ∉ l2.map Location.address := (List.nodup_cons.1 hndB).1
  have hxA : q.2.address ∉ l1.map Location.address := by
    intro hmemA
    exact hdisj hmemA (List.mem_cons_self _ _)
  refine ⟨l1 ++ l2, ?_, ?_, ?_, ?_⟩
  · rw [first_solution_eq]
    simp only [hqm]
    rw [hfilter]
  · simp only [List.length_append, List.length_cons]
    omega
  · intro hmem2
    rw [List.map_append] at hmem2
    rcases List.mem_append.1 hmem2 with hmem2 | hmem2
    · exact hxA hmem2
    · exact hxB hmem2
  · intro c hc hne
    rcases List.mem_append.1 hc with hc | hc
    · exact List.mem_append_left _ hc
    · rcases List.mem_cons.1 hc with hc | hc
      · exact absurd hc hne
      · exact List.mem_append_right _ hc

theorem qualMin_enumFrom_append (t : Nat) (b : Location) :
    ∀ (l1 : List Location) (l2 : List Location) (n : Nat),
      t ≤ b.length →
      (∀ c ∈ l1 ++ b :: l2, t ≤ c.length → b.length ≤ c.length) →
      (∀ c ∈ l1, t ≤ c.length → b.length < c.length) →
      qualMin t ((l1 ++ b :: l2).enumFrom n) = some (n + l1.length, b) := by
  intro l1
  induction l1 with
  | nil =>
    intro l2 n hb hmin hfirst
    rw [show (([] : List Location) ++ b :: l2).enumFrom n
        = (n, b) :: l2.enumFrom (n + 1) from rfl]
    simp only [qualMin, if_pos (show t ≤ (Prod.mk n b).2.length from hb)]
    cases hq : qualMin t (l2.enumFrom (n + 1)) with
    | none => simp [pickMin]
    | some m =>
      have hm2 : m.2 ∈ l2 := by
        obtain ⟨j, hj, _, hsnd⟩ := enumFrom_mem_spec l2 (n + 1) m (qualMin_mem hq)
        exact hsnd ▸ List.get_mem l2 j hj
      have hmq : t ≤ m.2.length := qualMin_qual hq
      have hle : b.length ≤ m.2.length := by
        refine hmin m.2 ?_ hmq
        exact List.mem_cons_of_mem _ hm2
      simp [pickMin, hle]
  | cons c l1 ih =>
    intro l2 n hb hmin hfirst
    rw [show ((c :: l1) ++ b :: l2).enumFrom n
        = (n, c) :: (l1 ++ b :: l2).enumFrom (n + 1) from rfl]
    have ihres := ih l2 (n + 1) hb
      (fun d hd hdt => hmin d (List.mem_cons_of_mem _ hd) hdt)
      (fun d hd hdt => hfirst d (List.mem_cons_of_mem _ hd) hdt)
    have harith : n + 1 + l1.length = n + (c :: l1).length := by
      simp only [List.length_cons]
      omega
    by_cases hc : t ≤ c.length
    · have hlt : b.length < c.length := hfirst c (List.mem_cons_self _ _) hc
      simp only [qualMin, if_pos (show t ≤ (Prod.mk n c).2.length from hc), ihres, pickMin]
      rw [if_neg (show ¬ (Prod.mk n c).2.length ≤ b.length by
        simp only []
        omega)]
      rw [harith]
    · simp only [qualMin, if_neg (show ¬ t ≤ (Prod.mk n c).2.length from hc), ihres]
      rw [harith]

/-! ## Claim theorems -/

/-- C1 (amended): for every free list containing at least one block with
`length ≥ target` of length below `u64::MAX`, the four selection strategies,
each applied to an independent copy of the same list with the same target,
return the identical block (same address and same length). -/
theorem strategies_agree_on_common_input (l : List Location) (t : Nat)
    (hq : ∃ b ∈ l, t ≤ b.length ∧ b.length < U64MAX) :
    ∃ blk : Location,
      (first_solution l t).map Prod.fst = some blk ∧
      (second_solution l t).map Prod.fst = some blk ∧
      (third_solution l t).map Prod.fst = some blk ∧
      (fourth_solution l t).map Prod.fst = some blk := by
  obtain ⟨b, hb, hbt, hbmax⟩ := hq
  obtain ⟨q, hqm, h1, hget⟩ := qualMin_enum_select l t ⟨b, hb, hbt⟩
  have hmin := qualMin_enum_min l t hqm b hb hbt
  have hqlt : q.2.length < U64MAX := by omega
  have hswap := swapRemove_eq l q.1 h1
  refine ⟨q.2, ?_, ?_, ?_, ?_⟩
  · rw [first_solution_eq]
    simp only [hqm]
    rfl
  · rw [second_solution_eq]
    simp only [hqm]
    rw [hswap, ← hget]
    rfl
  · rw [third_solution_eq]
    simp only [hqm]
    rw [hswap, ← hget]
    rfl
  · rw [fourth_solution_eq]
    simp only [hqm]
    rw [if_pos hqlt, hswap, ← hget]
    rfl

/-- Witness for C1: on the list `[⟨0, 2⟩]` with target 2 all four strategies
return the block `⟨0, 2⟩`. -/
theorem strategies_agree_on_common_input_witness :
    ∃ blk : Location,
      (first_solution [⟨0, 2⟩] 2).map Prod.fst = some blk ∧
      (second_solution [⟨0, 2⟩] 2).map Prod.fst = some blk ∧
      (third_solution [⟨0, 2⟩] 2).map Prod.fst = some blk ∧
      (fourth_solution [⟨0, 2⟩] 2).map Prod.fst = some blk :=
  strategies_agree_on_common_input [⟨0, 2⟩] 2 ⟨⟨0, 2⟩, by decide, by decide, by decide⟩

/-- Counterexample to C1 as stated: the list `[⟨0, u64::MAX⟩]` with target 0
contains a qualifying block, `first_solution` returns it, but
`fourth_solution` hits its failure branch (its strict comparison against the
`u64::MAX` sentinel never succeeds), so the strategies do not all return the
identical block. -/
theorem strategies_disagree_at_u64max :
    (∃ b ∈ [Location.mk 0 U64MAX], (0 : Nat) ≤ b.length) ∧
    (first_solution [Location.mk 0 U64MAX] 0).map Prod.fst
      = some (Location.mk 0 U64MAX) ∧
    (fourth_solution [Location.mk 0 U64MAX] 0).map Prod.fst = none := by
  refine ⟨⟨Location.mk 0 U64MAX, List.mem_cons_self _ _, Nat.zero_le _⟩, ?_, ?_⟩ <;> decide

/-- C5 (amended): for every free list containing a qualifying block of length
below `u64::MAX`, each of the four strategies returns a block whose length is
at least the target. -/
theorem strategies_return_fitting (l : List Location) (t : Nat)
    (hq : ∃ b ∈ l, t ≤ b.length ∧ b.length < U64MAX) :
    ∀ r ∈ [first_solution l t, second_solution l t, third_solution l t,
      fourth_solution l t],
      ∃ blk rest, r = some (blk, rest) ∧ t ≤ blk.length := by
  obtain ⟨b, hb, hbt, hbmax⟩ := hq
  obtain ⟨q, hqm, h1, hget⟩ := qualMin_enum_select l t ⟨b, hb, hbt⟩
  have hqual : t ≤ q.2.length := qualMin_qual hqm
  have hmin := qualMin_enum_min l t hqm b hb hbt
  have hqlt : q.2.length < U64MAX := by omega
  have hswap := swapRemove_eq l q.1 h1
  intro r hr
  simp only [List.mem_cons, List.not_mem_nil, or_false] at hr
  rcases hr with hr | hr | hr | hr
  · subst hr
    refine ⟨q.2, l.filter (fun c => decide (c.address ≠ q.2.address)), ?_, hqual⟩
    rw [first_solution_eq]
    simp only [hqm]
  · subst hr
    refine ⟨l.get ⟨q.1, h1⟩, (l.set q.1 (l.getLastD ⟨0, 0⟩)).dropLast, ?_,
      by rw [hget]; exact hqual⟩
    rw [second_solution_eq]
    simp only [hqm]
    exact hswap
  · subst hr
    refine ⟨l.get ⟨q.1, h1⟩, (l.set q.1 (l.getLastD ⟨0, 0⟩)).dropLast, ?_,
      by rw [hget]; exact hqual⟩
    rw [third_solution_eq]
    simp only [hqm]
    exact hswap
  · subst hr
    refine ⟨l.get ⟨q.1, h1⟩, (l.set q.1 (l.getLastD ⟨0, 0⟩)).dropLast, ?_,
      by rw [hget]; exact hqual⟩
    rw [fourth_solution_eq]
    simp only [hqm]
    rw [if_pos hqlt]
    exact hswap

/-- Witness for C5: on `[⟨0, 2⟩]` with target 2, `fourth_solution` returns a
block of length at least 2. -/
theorem strategies_return_fitting_witness :
    ∃ blk rest, fourth_solution [⟨0, 2⟩] 2 = some (blk, rest) ∧ 2 ≤ blk.length :=
  strategies_return_fitting [⟨0, 2⟩] 2 ⟨⟨0, 2⟩, by decide, by decide, by decide⟩
    (fourth_solution [⟨0, 2⟩] 2)
    (List.mem_cons_of_mem _ (List.mem_cons_of_mem _ (List.mem_cons_of_mem _
      (List.mem_cons_self _ _))))

/-- Counterexample to C5 as stated: `[⟨0, u64::MAX⟩]` with target 2 contains a
qualifying block, yet `fourth_solution` returns no block at all. -/
theorem fourth_no_block_at_u64max :
    (∃ b ∈ [Location.mk 0 U64MAX], (2 : Nat) ≤ b.length) ∧
    fourth_solution [Location.mk 0 U64MAX] 2 = none := by
  refine ⟨⟨Location.mk 0 U64MAX, List.mem_cons_self _ _, by decide⟩, by decide⟩

/-- C8: on a free list in which no block has `length ≥ target`, each of the
four strategies signals the fatal not-found condition (the `unwrap` /
`expect` panic, modelled as `none`) instead of silently returning a default
block. -/
theorem strategies_signal_failure (l : List Location) (t : Nat)
    (h : ∀ b ∈ l, b.length < t) :
    first_solution l t = none ∧ second_solution l t = none ∧
    third_solution l t = none ∧ fourth_solution l t = none := by
  have hqm := qualMin_enum_none l t h
  refine ⟨?_, ?_, ?_, ?_⟩
  · rw [first_solution_eq]
    simp only [hqm]
  · rw [second_solution_eq]
    simp only [hqm]
  · rw [third_solution_eq]
    simp only [hqm]
  · rw [fourth_solution_eq]
    simp only [hqm]

/-- Witness for C8: on `[⟨0, 2⟩]` with target 3 every strategy fails. -/
theorem strategies_signal_failure_witness :
    first_solution [⟨0, 2⟩] 3 = none ∧ second_solution [⟨0, 2⟩] 3 = none ∧
    third_solution [⟨0, 2⟩] 3 = none ∧ fourth_solution [⟨0, 2⟩] 3 = none :=
  strategies_signal_failure [⟨0, 2⟩] 3 (by decide)

/-- C9: on the list `[⟨0, u64::MAX⟩]` (every qualifying block has length
`u64::MAX`) with target 2, `fourth_solution` reaches its failure branch
(`best_index` stays `None`) while `third_solution` returns a qualifying
block on the same input. -/
theorem fourth_fails_third_succeeds_at_u64max :
    fourth_solution [Location.mk 0 U64MAX] 2 = none ∧
    third_solution [Location.mk 0 U64MAX] 2 = some (Location.mk 0 U64MAX, []) ∧
    (2 : Nat) ≤ U64MAX := by
  refine ⟨by decide, by decide, by decide⟩

/-- C2: when several qualifying blocks share the minimum qualifying length,
`first_solution` and `second_solution` select the first such minimal block in
iteration order; and on the list `[⟨0,2⟩, ⟨2,4⟩, ⟨6,2⟩]` with target 2 every
strategy returns the block `⟨0,2⟩`. -/
theorem tie_break_first_minimal (l1 l2 : List Location) (b : Location) (t : Nat)
    (hb : t ≤ b.length)
    (hmin : ∀ c ∈ l1 ++ b :: l2, t ≤ c.length → b.length ≤ c.length)
    (hfirst : ∀ c ∈ l1, t ≤ c.length → b.length < c.length) :
    ((first_solution (l1 ++ b :: l2) t).map Prod.fst = some b ∧
      (second_solution (l1 ++ b :: l2) t).map Prod.fst = some b) ∧
    ((first_solution exampleBlocks 2).map Prod.fst = some ⟨0, 2⟩ ∧
      (second_solution exampleBlocks 2).map Prod.fst = some ⟨0, 2⟩ ∧
      (third_solution exampleBlocks 2).map Prod.fst = some ⟨0, 2⟩ ∧
      (fourth_solution exampleBlocks 2).map Prod.fst = some ⟨0, 2⟩) := by
  have hqm : qualMin t ((l1 ++ b :: l2).enum) = some (0 + l1.length, b) :=
    qualMin_enumFrom_append t b l1 l2 0 hb hmin hfirst
  refine ⟨⟨?_, ?_⟩, by decide, by decide, by decide, by decide⟩
  · rw [first_solution_eq]
    simp only [hqm]
    rfl
  · rw [second_solution_eq]
    simp only [hqm]
    have hidx : 0 + l1.length < (l1 ++ b :: l2).length := by
      simp only [List.length_append, List.length_cons]
      omega
    rw [swapRemove_eq _ _ hidx]
    have hgetb : (l1 ++ b :: l2).get ⟨0 + l1.length, hidx⟩ = b := by
      simp only [List.get_eq_getElem]
      rw [List.getElem_append_right (by omega)]
      simp
    rw [hgetb]
    rfl

/-- Witness for C2: the tie-break rule at the concrete list
`[⟨0,2⟩, ⟨2,4⟩, ⟨6,2⟩]` with target 2, the winner being `⟨0,2⟩`. -/
theorem tie_break_first_minimal_witness :
    ((first_solution ([] ++ Location.mk 0 2 :: [⟨2, 4⟩, ⟨6, 2⟩]) 2).map Prod.fst
        = some (Location.mk 0 2) ∧
      (second_solution ([] ++ Location.mk 0 2 :: [⟨2, 4⟩, ⟨6, 2⟩]) 2).map Prod.fst
        = some (Location.mk 0 2)) ∧
    ((first_solution exampleBlocks 2).map Prod.fst = some ⟨0, 2⟩ ∧
      (second_solution exampleBlocks 2).map Prod.fst = some ⟨0, 2⟩ ∧
      (third_solution exampleBlocks 2).map Prod.fst = some ⟨0, 2⟩ ∧
      (fourth_solution exampleBlocks 2).map Prod.fst = some ⟨0, 2⟩) :=
  tie_break_first_minimal [] [⟨2, 4⟩, ⟨6, 2⟩] (Location.mk 0 2) 2 (by decide)
    (by decide) (by decide)

/-- C3 (amended): each driver iteration clones the free list once per
`ProfileBlock` variant, so the number of clones is five — the four strategies
plus the `CreateWork` variant — one more than the number of strategies. -/
theorem clone_count_eq_variant_count (l : List Location) :
    (cloneWork l).length = NUM_PROFILE_BLOCKS ∧ NUM_PROFILE_BLOCKS = 5 := by
  constructor
  · simp [cloneWork]
  · rfl

/-- Counterexample to C3 as stated: the number of clones per iteration is not
four. -/
theorem clone_count_ne_four : (cloneWork [Location.mk 0 2]).length ≠ 4 := by decide

/-- C6 (amended): on a list with pairwise-distinct addresses containing a
qualifying block of length below `u64::MAX`, each strategy reduces the list
length by exactly one, the returned block's address is no longer present in
the resulting list, and every other block of the input appears in the
result. -/
theorem strategies_frame (l : List Location) (t : Nat)
    (hnd : (l.map Location.address).Nodup)
    (hq : ∃ b ∈ l, t ≤ b.length ∧ b.length < U64MAX) :
    ∀ r ∈ [first_solution l t, second_solution l t, third_solution l t,
      fourth_solution l t],
      ∃ blk rest, r = some (blk, rest) ∧ rest.length + 1 = l.length ∧
        blk.address ∉ rest.map Location.address ∧
        ∀ c ∈ l, c ≠ blk → c ∈ rest := by
  obtain ⟨b, hb, hbt, hbmax⟩ := hq
  obtain ⟨q, hqm, h1, hget⟩ := qualMin_enum_select l t ⟨b, hb, hbt⟩
  have hmin := qualMin_enum_min l t hqm b hb hbt
  have hqlt : q.2.length < U64MAX := by omega
  obtain ⟨rest2, hsw, hlen2, haddr2, hmem2⟩ := swapRemove_frame l q.1 h1 hnd
  intro r hr
  simp only [List.mem_cons, List.not_mem_nil, or_false] at hr
  rcases hr with hr | hr | hr | hr
  · subst hr
    obtain ⟨rest1, heq1, hlen1, haddr1, hmem1⟩ := first_frame l t hnd hqm
    exact ⟨q.2, rest1, heq1, hlen1, haddr1, hmem1⟩
  · subst hr
    refine ⟨l.get ⟨q.1, h1⟩, rest2, ?_, hlen2, haddr2, hmem2⟩
    rw [second_solution_eq]
    simp only [hqm]
    exact hsw
  · subst hr
    refine ⟨l.get ⟨q.1, h1⟩, rest2, ?_, hlen2, haddr2, hmem2⟩
    rw [third_solution_eq]
    simp only [hqm]
    exact hsw
  · subst hr
    refine ⟨l.get ⟨q.1, h1⟩, rest2, ?_, hlen2, haddr2, hmem2⟩
    rw [fourth_solution_eq]
    simp only [hqm]
    rw [if_pos hqlt]
    exact hsw

/-- Witness for C6: on `[⟨0,2⟩, ⟨2,4⟩]` with target 2, `first_solution`
removes exactly one block. -/
theorem strategies_frame_witness :
    ∃ blk rest, first_solution [⟨0, 2⟩, ⟨2, 4⟩] 2 = some (blk, rest) ∧
      rest.length + 1 = ([⟨0, 2⟩, ⟨2, 4⟩] : List Location).length ∧
      blk.address ∉ rest.map Location.address ∧
      ∀ c ∈ ([⟨0, 2⟩, ⟨2, 4⟩] : List Location), c ≠ blk → c ∈ rest :=
  strategies_frame [⟨0, 2⟩, ⟨2, 4⟩] 2 (by decide)
    ⟨⟨0, 2⟩, by decide, by decide, by decide⟩
    (first_solution [⟨0, 2⟩, ⟨2, 4⟩] 2) (List.mem_cons_self _ _)

/-- Counterexample to C6 as stated: on `[⟨0, u64::MAX⟩, ⟨0, u64::MAX⟩]`
(duplicate addresses) with target 0, which contains a qualifying block,
`first_solution` removes both blocks (the length drops by two) and
`fourth_solution` removes none (it fails). -/
theorem frame_violation_at_duplicates :
    (∃ b ∈ [Location.mk 0 U64MAX, Location.mk 0 U64MAX], (0 : Nat) ≤ b.length) ∧
    first_solution [Location.mk 0 U64MAX, Location.mk 0 U64MAX] 0
      = some (Location.mk 0 U64MAX, []) ∧
    fourth_solution [Location.mk 0 U64MAX, Location.mk 0 U64MAX] 0 = none := by
  refine ⟨⟨Location.mk 0 U64MAX, List.mem_cons_self _ _, Nat.zero_le _⟩,
    by decide, by decide⟩

/-- C4: for every workload produced by the generator and every counter read
`r`, the allocation target `r mod max_allocation` is strictly less than the
maximum block length present in the generated free list, some block fits,
and no strategy's not-found failure branch is reachable (each returns a
result). -/
theorem generated_target_fits (tsc : Nat → Nat) (r : Nat) :
    allocTarget r (create_free_blocks tsc).2 < maxLength (create_free_blocks tsc).1 ∧
    (∃ b ∈ (create_free_blocks tsc).1,
      allocTarget r (create_free_blocks tsc).2 ≤ b.length) ∧
    (first_solution (create_free_blocks tsc).1
      (allocTarget r (create_free_blocks tsc).2)).isSome = true ∧
    (second_solution (create_free_blocks tsc).1
      (allocTarget r (create_free_blocks tsc).2)).isSome = true ∧
    (third_solution (create_free_blocks tsc).1
      (allocTarget r (create_free_blocks tsc).2)).isSome = true ∧
    (fourth_solution (create_free_blocks tsc).1
      (allocTarget r (create_free_blocks tsc).2)).isSome = true := by
  obtain ⟨h10, hltlen, haddr, hpow, hbnd, hattain, hm2⟩ := create_free_blocks_spec tsc
  have hml : maxLength (create_free_blocks tsc).1 = (create_free_blocks tsc).2 :=
    maxLength_eq hbnd hattain
  have htlt : allocTarget r (create_free_blocks tsc).2 < (create_free_blocks tsc).2 :=
    Nat.mod_lt _ (by omega)
  obtain ⟨bmax, hbmem, hbeq⟩ := hattain
  have hbmaxlt : bmax.length < U64MAX := by
    obtain ⟨e, he, helen⟩ := hpow bmax hbmem
    have h256 : (2 : Nat) ^ (e + 1) ≤ 256 := by
      calc (2 : Nat) ^ (e + 1) ≤ 2 ^ 8 := Nat.pow_le_pow_right (by norm_num) (by omega)
        _ = 256 := by norm_num
    have hUM : U64MAX = 18446744073709551615 := by norm_num [U64MAX]
    omega
  have hfitb : allocTarget r (create_free_blocks tsc).2 ≤ bmax.length := by omega
  obtain ⟨q, hqm, h1, hget⟩ :=
    qualMin_enum_select (create_free_blocks tsc).1
      (allocTarget r (create_free_blocks tsc).2) ⟨bmax, hbmem, hfitb⟩
  have hminq := qualMin_enum_min _ _ hqm bmax hbmem hfitb
  have hqlt : q.2.length < U64MAX := by omega
  have hswap := swapRemove_eq (create_free_blocks tsc).1 q.1 h1
  refine ⟨by omega, ⟨bmax, hbmem, hfitb⟩, ?_, ?_, ?_, ?_⟩
  · rw [first_solution_eq]
    simp only [hqm]
    rfl
  · rw [second_solution_eq]
    simp only [hqm]
    rw [hswap]
    rfl
  · rw [third_solution_eq]
    simp only [hqm]
    rw [hswap]
    rfl
  · rw [fourth_solution_eq]
    simp only [hqm]
    rw [if_pos hqlt, hswap]
    rfl

/-- C7: for every workload produced by the generator, every block's address
equals the sum of the lengths of all previously generated blocks (strict
packing, no gaps), and the list length lies within `[10, 10 + 16384)`. -/
theorem generated_blocks_packed (tsc : Nat → Nat) :
    (∀ j, ∀ hj : j < (create_free_blocks tsc).1.length,
      ((create_free_blocks tsc).1.get ⟨j, hj⟩).address
        = (((create_free_blocks tsc).1.take j).map Location.length).sum) ∧
    10 ≤ (create_free_blocks tsc).1.length ∧
    (create_free_blocks tsc).1.length < 10 + 16384 := by
  obtain ⟨h10, hltlen, haddr, _, _, _, _⟩ := create_free_blocks_spec tsc
  have hFB : FREE_BLOCKS_SIZE = 16384 := by norm_num [FREE_BLOCKS_SIZE]
  exact ⟨haddr, h10, by omega⟩

/-- Witness for C7: at the all-zero entropy stream, the first block's address
is the empty sum. -/
theorem generated_blocks_packed_witness :
    ((create_free_blocks (fun _ => 0)).1.get ⟨0, by decide⟩).address
      = ((((create_free_blocks (fun _ => 0)).1.take 0).map Location.length)).sum :=
  (generated_blocks_packed (fun _ => 0)).1 0 (by decide)

/-- C10: every value returned by `create_free_blocks` is a list of at least 10
blocks (in particular non-empty) together with a maximum allocation of at
least 2, and every generated length is a power of two between 2 and 256, so
the driver's modulo by the returned maximum never divides by zero. -/
theorem generated_blocks_wellformed (tsc : Nat → Nat) :
    10 ≤ (create_free_blocks tsc).1.length ∧
    (create_free_blocks tsc).1 ≠ [] ∧
    2 ≤ (create_free_blocks tsc).2 ∧
    ∀ b ∈ (create_free_blocks tsc).1, ∃ e, e ≤ 7 ∧ b.length = 2 ^ (e + 1) ∧
      2 ≤ b.length ∧ b.length ≤ 256 := by
  obtain ⟨h10, hltlen, haddr, hpow, hbnd, hattain, hm2⟩ := create_free_blocks_spec tsc
  refine ⟨h10, ?_, hm2, ?_⟩
  · intro h0
    rw [h0] at h10
    simp at h10
  · intro c hc
    obtain ⟨e, he, helen⟩ := hpow c hc
    refine ⟨e, he, helen, ?_, ?_⟩
    · rw [helen]
      calc (2 : Nat) = 2 ^ 1 := by norm_num
        _ ≤ 2 ^ (e + 1) := Nat.pow_le_pow_right (by norm_num) (by omega)
    · rw [helen]
      calc (2 : Nat) ^ (e + 1) ≤ 2 ^ 8 := Nat.pow_le_pow_right (by norm_num) (by omega)
        _ = 256 := by norm_num

/-- Witness for C10: with the all-zero entropy stream the block `⟨0, 2⟩` is
generated and its length is a power of two in range. -/
theorem generated_blocks_wellformed_witness :
    Location.mk 0 2 ∈ (create_free_blocks (fun _ => 0)).1 ∧
    ∃ e, e ≤ 7 ∧ (Location.mk 0 2).length = 2 ^ (e + 1) ∧
      2 ≤ (Location.mk 0 2).length ∧ (Location.mk 0 2).length ≤ 256 :=
  ⟨by decide,
    (generated_blocks_wellformed (fun _ => 0)).2.2.2 (Location.mk 0 2) (by decide)⟩

/-- Witness for C3: on a concrete two-block list the driver makes five
clones. -/
theorem clone_count_eq_variant_count_witness :
    (cloneWork [Location.mk 0 2, Location.mk 2 4]).length = NUM_PROFILE_BLOCKS ∧
    NUM_PROFILE_BLOCKS = 5 :=
  clone_count_eq_variant_count [Location.mk 0 2, Location.mk 2 4]

/-- Witness for C4: at a concrete entropy stream and counter read,
`fourth_solution` succeeds on the generated workload. -/
theorem generated_target_fits_witness :
    (fourth_solution (create_free_blocks (fun _ => 1)).1
      (allocTarget 3 (create_free_blocks (fun _ => 1)).2)).isSome = true :=
  (generated_target_fits (fun _ => 1) 3).2.2.2.2.2
